import Mathlib

/-!
# Buddhabrot (`buddha.cpp`): a shallow embedding and its checked properties

The C++ program is embedded as pure Lean functions.

* `double` arithmetic is taken exactly, over an ordered field `K` with a floor
  function (`ℚ` to run the definitions).
* The functions of `<math.h>` and `<stdlib.h>` the program calls are not part of
  the repository; they are the fields of `Libm`, and the statements about the
  program hold for every such library. `realLibm`, the library over the real
  numbers, serves the one statement made over the reals (`smoothstep` is
  monotone) and the concrete inputs, chosen so that the `double` computation is
  exact there.
* `short` fields are integers kept in `[-32768, 32767]` by `wrap16`; `int`
  loop counters and dimensions are unbounded integers.
* `canvas.data` and the `orbit` buffer are memories (functions from indices);
  an access to `canvas.data[x][y]` outside `[0,width) × [0,height)` is a fault
  (`none`).
* `rand()` is a list of draws consumed from the front.
-/

namespace Buddhabrot

/-! ## Data model -/

/-- The struct `Color`: three `short` counters. -/
structure Color where
  red : Int
  green : Int
  blue : Int
deriving DecidableEq, Repr

/-- The struct `Complex`: two `double` fields. -/
structure Complex (K : Type) where
  real : K
  imag : K
deriving DecidableEq, Repr

/-- The struct `Threshold`: four `int` fields. -/
structure Threshold where
  red : Int
  green : Int
  blue : Int
  max : Int
deriving DecidableEq, Repr

/-- The struct `Canvas`: `data` is the memory `Color**` points to. -/
structure Canvas where
  width : Int
  height : Int
  data : Nat → Nat → Color

/-- The private fields of class `Buddha`. -/
structure Buddha where
  canvas : Canvas
  threshold : Threshold
  samples : Int

/-- The library functions and constants `buddha.cpp` uses but does not define. -/
structure Libm (K : Type) where
  cos : K → K
  sin : K → K
  pow : K → K → K
  cbrt : K → K
  M_PI : K
  RAND_MAX : Nat

/-! ## Machine arithmetic -/

/-- Conversion of an `int` value to `short`, as `++` on a `short` field does
after the integer promotion: reduction modulo `2^16` into `[-32768, 32767]`. -/
def wrap16 (v : Int) : Int := (v + 32768) % 65536 - 32768

/-- The C cast `(int) d` of a `double`: truncation toward zero. -/
def trunc {K : Type} [LinearOrderedField K] [FloorRing K] (d : K) : Int :=
  if 0 ≤ d then ⌊d⌋ else ⌈d⌉

/-- The value of `SHRT_MAX` from `<limits.h>` for a 16-bit `short`. -/
def SHRT_MAX : Int := 32767

/-! ## `Buddha::Buddha` -/

/-- The constructor: copies the arguments, then recomputes `threshold.max`. -/
def Buddha.construct (canvas : Canvas) (threshold : Threshold) (samples : Int) : Buddha :=
  let max0 := threshold.red
  let max1 := if threshold.green > max0 then threshold.green else max0
  let max2 := if threshold.blue > max1 then threshold.blue else max1
  { canvas := canvas, threshold := { threshold with max := max2 }, samples := samples }

/-! ## `Buddha::mandel_rand` -/

/-- The do-while loop of `mandel_rand`: each round takes two draws of `rand()`;
`none` when the draws are used up before the loop exits. The constant `(1 / 16)`
is an `int` division. -/
def mandel_rand {K : Type} [LinearOrderedField K] (m : Libm K) :
    List Nat → Option (Complex K × List Nat)
  | r1 :: r2 :: rest =>
    let theta := 2 * m.M_PI * ((r1 : K) / (m.RAND_MAX : K))
    let radius := 2 * ((r2 : K) / (m.RAND_MAX : K))
    let c : Complex K := ⟨m.cos theta * radius, m.sin theta * radius⟩
    let q := m.pow (c.real - 0.25) 2 + m.pow c.imag 2
    let cardiod : Bool := decide (q * (q + c.real - 0.25) ≤ 0.25 * m.pow c.imag 2)
    let bulb_p2 : Bool := decide (m.pow (c.real + 1) 2 + m.pow c.imag 2 ≤ (((1 / 16 : Int)) : K))
    if cardiod || bulb_p2 then mandel_rand m rest else some (c, rest)
  | _ => none

/-! ## `Buddha::retrace` -/

/-- One statement `canvas.data[x][y].field++`: a fault outside the allocation,
else the pixel is replaced by `f` of itself. -/
def Buddha.incr (b : Buddha) (x y : Int) (f : Color → Color) : Option Buddha :=
  if 0 ≤ x ∧ x < b.canvas.width ∧ 0 ≤ y ∧ y < b.canvas.height then
    some { b with canvas := { b.canvas with
      data := fun u v =>
        if u = x.toNat ∧ v = y.toNat then f (b.canvas.data u v) else b.canvas.data u v } }
  else none

/-- The effect of `++` on the `short` field `red`. -/
def Color.incRed (p : Color) : Color := { p with red := wrap16 (p.red + 1) }

/-- The effect of `++` on the `short` field `green`. -/
def Color.incGreen (p : Color) : Color := { p with green := wrap16 (p.green + 1) }

/-- The effect of `++` on the `short` field `blue`. -/
def Color.incBlue (p : Color) : Color := { p with blue := wrap16 (p.blue + 1) }

/-- The pixel column `(int) (canvas.width * (c.real + 2) / 4)`. -/
def pixelX {K : Type} [LinearOrderedField K] [FloorRing K] (width : Int) (c : Complex K) : Int :=
  trunc ((width : K) * (c.real + 2) / 4)

/-- The pixel row `(int) (canvas.height * (c.imag + 2) / 4)`. -/
def pixelY {K : Type} [LinearOrderedField K] [FloorRing K] (height : Int) (c : Complex K) : Int :=
  trunc ((height : K) * (c.imag + 2) / 4)

/-- The body of the loop of `retrace` at index `i`. -/
def retrace_body {K : Type} [LinearOrderedField K] [FloorRing K]
    (orbit : Nat → Complex K) (b : Buddha) (i : Nat) : Option Buddha :=
  let c := orbit i
  let x := pixelX b.canvas.width c
  let y := pixelY b.canvas.height c
  (if (i : Int) < b.threshold.red then b.incr x y Color.incRed else some b).bind fun b1 =>
  (if (i : Int) < b1.threshold.green then b1.incr x y Color.incGreen else some b1).bind fun b2 =>
  (if (i : Int) < b2.threshold.blue then b2.incr x y Color.incBlue else some b2)

/-- The method `retrace(orbit, length)`: `i` runs over `0 ≤ i < length`. -/
def retrace {K : Type} [LinearOrderedField K] [FloorRing K]
    (b : Buddha) (orbit : Nat → Complex K) (length : Int) : Option Buddha :=
  (List.range length.toNat).foldlM (retrace_body orbit) b

/-! ## `Buddha::iterate` -/

/-- The inner `for` loop of `iterate` with `n` rounds left, at index `i`, with
the current `z` and `orbit` buffer. Returns the buffer and the index at which the
loop reached `break`, if it did. -/
def for_loop {K : Type} [LinearOrderedField K] (c : Complex K) :
    Nat → Nat → Complex K → (Nat → Complex K) → (Nat → Complex K) × Option Nat
  | 0, _, _, orbit => (orbit, none)
  | n + 1, i, z, orbit =>
    let z_real_sq := z.real * z.real
    let z_imag_sq := z.imag * z.imag
    let z1 : Complex K := ⟨z_real_sq - z_imag_sq + c.real, 2 * z.real * z.imag + c.imag⟩
    let orbit1 := Function.update orbit i z1
    if z_real_sq + z_imag_sq > 4 then (orbit1, some i) else for_loop c n (i + 1) z1 orbit1

/-- What a run of `iterate` over a finite supply of `rand()` draws comes to. -/
inductive Outcome where
  /-- The loop `while (count < samples)` ended. -/
  | exited (b : Buddha) (count : Int)
  /-- The draws were used up while `count < samples` still held. -/
  | starved (b : Buddha) (count : Int)
  /-- A `canvas.data[x][y]` access fell outside the allocation. -/
  | fault

/-- One trial (the body of the `while` loop) for the seed `c`: the `for` loop,
then `retrace(orbit, i - 1)` and `count++` when it reached `break` at `i`.
The progress line printed by `print_progress` is not part of the state. -/
def trial {K : Type} [LinearOrderedField K] [FloorRing K]
    (b : Buddha) (count : Int) (orbit : Nat → Complex K) (c : Complex K) :
    Option (Buddha × Int × (Nat → Complex K)) :=
  match for_loop c b.threshold.max.toNat 0 ⟨0, 0⟩ orbit with
  | (orbit1, some i) => (retrace b orbit1 ((i : Int) - 1)).map fun b1 => (b1, count + 1, orbit1)
  | (orbit1, none) => some (b, count, orbit1)

/-- The loop `while (count < samples)` of `iterate`, for at most `fuel` trials.
Every trial takes at least two draws, so `fuel = draws.length` never runs out
before the draws do (`while_loop_fuel`). -/
def while_loop {K : Type} [LinearOrderedField K] [FloorRing K] (m : Libm K) :
    Nat → Buddha → Int → (Nat → Complex K) → List Nat → Outcome
  | 0, b, count, _, _ =>
    if count < b.samples then Outcome.starved b count else Outcome.exited b count
  | fuel + 1, b, count, orbit, draws =>
    if count < b.samples then
      match mandel_rand m draws with
      | none => Outcome.starved b count
      | some (c, rest) =>
        match trial b count orbit c with
        | none => Outcome.fault
        | some (b1, count1, orbit1) => while_loop m fuel b1 count1 orbit1 rest
    else Outcome.exited b count

/-- The method `iterate()`: `count = 0`, a buffer `orbit` of unspecified initial
content, then the `while` loop. -/
def iterate {K : Type} [LinearOrderedField K] [FloorRing K] (m : Libm K)
    (b : Buddha) (orbit0 : Nat → Complex K) (draws : List Nat) : Outcome :=
  while_loop m draws.length b 0 orbit0 draws

/-! ## `smoothstep` and `prettify` -/

/-- The function `smoothstep`: the `short` argument is converted to `double`, the
quotient is cast back with `(short)`, which truncates toward zero. -/
def smoothstep {K : Type} [LinearOrderedField K] [FloorRing K] (m : Libm K) (x : Int) : Int :=
  trunc (120 / (1 + m.pow 2 (-2 * (m.cbrt (x : K) - 5))))

/-- The function `prettify`: `smoothstep` on each field in turn. -/
def prettify {K : Type} [LinearOrderedField K] [FloorRing K] (m : Libm K)
    (color : Color) : Color :=
  let color1 := { color with red := smoothstep m color.red }
  let color2 := { color1 with green := smoothstep m color1.green }
  { color2 with blue := smoothstep m color2.blue }

/-! ## `main`: the files

A binary file is the list of the `short` values written to it, in order. -/

/-- The size in bytes of a `short`. -/
def sizeof_short : Nat := 2

/-- The call `fwrite(&color, sizeof(short), sizeof(Color) / sizeof(short), f)`:
appends the three fields. -/
def fwrite_color (color : Color) (f : List Int) : List Int :=
  f ++ [color.red, color.green, color.blue]

/-- The call `fread(&buffer, sizeof(short), sizeof(Color) / sizeof(short), in_f)`:
takes three values from the front; `none` when fewer are left (the buffer is
then not fully assigned). -/
def fread_color : List Int → Option (Color × List Int)
  | r :: g :: b :: rest => some (⟨r, g, b⟩, rest)
  | _ => none

/-- The rows `calloc` gives the canvas in generate mode: every counter is zero. -/
def calloc_canvas (width height : Int) : Canvas :=
  { width := width, height := height, data := fun _ _ => ⟨0, 0, 0⟩ }

/-- The write loop of generate mode (`x` outer, `y` inner), from an empty file. -/
def write_loop (canvas : Canvas) : List Int :=
  (List.range canvas.width.toNat).foldl
    (fun f x => (List.range canvas.height.toNat).foldl
      (fun f y => fwrite_color (canvas.data x y) f) f) []

/-- The state of render mode's loop: what is left of `.buddhadata`, the pixel
data written to `buddha.ppm` so far, and the values `buffer` has taken. -/
structure RenderState where
  in_f : List Int
  out_f : List Int
  buffers : List Color
deriving DecidableEq, Repr

/-- The body of render mode's inner loop: `fread`, `prettify`, `fwrite`. -/
def render_pixel {K : Type} [LinearOrderedField K] [FloorRing K] (m : Libm K)
    (s : RenderState) : Option RenderState :=
  (fread_color s.in_f).map fun r =>
    { in_f := r.2, out_f := fwrite_color (prettify m r.1) s.out_f,
      buffers := s.buffers ++ [r.1] }

/-- The nested loops of render mode (`x` outer, `y` inner). -/
def render_loop {K : Type} [LinearOrderedField K] [FloorRing K] (m : Libm K)
    (width height : Int) (s : RenderState) : Option RenderState :=
  (List.range width.toNat).foldlM
    (fun s _ => (List.range height.toNat).foldlM (fun s _ => render_pixel m s) s) s

/-- The text `fprintf(out_f, "P6\t%i\t%i\t%i\n", width, height, SHRT_MAX)` writes. -/
def ppm_header (width height : Int) : String :=
  "P6\t" ++ toString width ++ "\t" ++ toString height ++ "\t" ++ toString SHRT_MAX ++ "\n"

/-- Render mode of `main` on the content `in_f` of `.buddhadata`: the header of
`buddha.ppm` and the state the loops end in. -/
def render {K : Type} [LinearOrderedField K] [FloorRing K] (m : Libm K)
    (width height : Int) (in_f : List Int) : String × Option RenderState :=
  (ppm_header width height, render_loop m width height ⟨in_f, [], []⟩)

/-- Generate mode of `main` up to the write loop: `calloc`, the constructor,
`iterate`, then the content of `.buddhadata`. -/
def generate {K : Type} [LinearOrderedField K] [FloorRing K] (m : Libm K)
    (width height samples red green blue : Int) (max0 : Int) (orbit0 : Nat → Complex K)
    (draws : List Nat) : Option (List Int) :=
  match iterate m (Buddha.construct (calloc_canvas width height) ⟨red, green, blue, max0⟩ samples)
      orbit0 draws with
  | Outcome.exited b _ => some (write_loop b.canvas)
  | _ => none

/-! ## The library over the real numbers -/

/-- The real cube root, odd in its argument as `cbrt` of `<math.h>` is. -/
noncomputable def realCbrt (x : ℝ) : ℝ :=
  if 0 ≤ x then x ^ ((1 : ℝ) / 3) else -((-x) ^ ((1 : ℝ) / 3))

/-- The library functions over the real numbers, without rounding. The values the
program computes in `double` differ from these by rounding, so this instance is
used only for statements made over the reals and at inputs where the `double`
computation is exact (such as `cos 0 = 1`, `sin 0 = 0`, `cbrt 0 = 0`,
`pow(2, 10) = 1024`); the other statements hold for every library. -/
noncomputable def realLibm (RAND_MAX : Nat) : Libm ℝ :=
  { cos := Real.cos, sin := Real.sin, pow := fun x y => x ^ y, cbrt := realCbrt,
    M_PI := Real.pi, RAND_MAX := RAND_MAX }

/-- The quotient `120 / (1 + 2^(-2 (cbrt x - 5)))` that `smoothstep` truncates. -/
noncomputable def smoothValue (x : Int) : ℝ :=
  120 / (1 + (2 : ℝ) ^ (-2 * (realCbrt (x : ℝ) - 5)))

/-! ## The file layout, to state what the loops of `main` produce -/

/-- The `short` values of a list of pixels: `red`, `green`, `blue` of each in turn. -/
def shorts (l : List Color) : List Int :=
  l.flatMap fun p => [p.red, p.green, p.blue]

/-- The pixels of a canvas listed with `x` outer and `y` inner. -/
def pixels (canvas : Canvas) : List Color :=
  (List.range canvas.width.toNat).flatMap fun x =>
    (List.range canvas.height.toNat).map fun y => canvas.data x y

/-! ## Sequences of `retrace` calls, to state what the counters hold -/

/-- A sequence of calls `retrace(orbit, length)` on one object, in order; `none`
as soon as one of them faults. -/
def run_retraces {K : Type} [LinearOrderedField K] [FloorRing K] (b : Buddha)
    (calls : List ((Nat → Complex K) × Int)) : Option Buddha :=
  calls.foldlM (fun b call => retrace b call.1 call.2) b

/-- Among the indices `is` of one orbit, how many lie below the channel threshold
`limit` and fall on pixel `(u, v)`: the increments that channel gets there. -/
def hitsIn {K : Type} [LinearOrderedField K] [FloorRing K] (width height limit : Int)
    (orbit : Nat → Complex K) (is : List Nat) (u v : Nat) : Nat :=
  is.countP fun (i : Nat) =>
    decide (((i : Nat) : Int) < limit ∧ pixelX width (orbit i) = (u : Int) ∧
      pixelY height (orbit i) = (v : Int))

/-- The increments a channel with threshold `limit` gets at pixel `(u, v)` over a
sequence of calls `retrace(orbit, length)`. -/
def hits {K : Type} [LinearOrderedField K] [FloorRing K] (width height limit : Int)
    (calls : List ((Nat → Complex K) × Int)) (u v : Nat) : Nat :=
  (calls.map fun call =>
    hitsIn width height limit call.1 (List.range call.2.toNat) u v).sum

/-- Every point the calls visit lies on the canvas. -/
def InRange {K : Type} [LinearOrderedField K] [FloorRing K] (width height : Int)
    (calls : List ((Nat → Complex K) × Int)) : Prop :=
  ∀ call ∈ calls, ∀ i : Nat, i < call.2.toNat →
    0 ≤ pixelX width (call.1 i) ∧ pixelX width (call.1 i) < width ∧
    0 ≤ pixelY height (call.1 i) ∧ pixelY height (call.1 i) < height

/-- The ghost counts `R`, `G`, `B` of increments that the stored counters are the
16-bit images of. -/
def Tracks (b : Buddha) (R G B : Nat → Nat → Nat) : Prop :=
  ∀ u v : Nat, b.canvas.data u v
    = ⟨wrap16 (R u v : Nat), wrap16 (G u v : Nat), wrap16 (B u v : Nat)⟩

/-! ## The quadratic orbit, to state what `iterate` computes -/

/-- The squared magnitude `real² + imag²`. -/
def normSq {K : Type} [LinearOrderedField K] (z : Complex K) : K :=
  z.real * z.real + z.imag * z.imag

/-- The quadratic orbit of `c`: `zBefore c 0 = 0` and each next value is
`z² + c`; `zBefore c i` is the value of `z` when round `i` of the `for` loop
starts, and `zBefore c (i + 1)` the value the round stores in `orbit[i]`. -/
def zBefore {K : Type} [LinearOrderedField K] (c : Complex K) : Nat → Complex K
  | 0 => ⟨0, 0⟩
  | i + 1 =>
    ⟨(zBefore c i).real * (zBefore c i).real - (zBefore c i).imag * (zBefore c i).imag + c.real,
      2 * (zBefore c i).real * (zBefore c i).imag + c.imag⟩

/-- The buffer `orbit` once the entries `i ≤ j < k` hold the orbit of `c`. -/
def fill {K : Type} [LinearOrderedField K] (c : Complex K) (orbit : Nat → Complex K)
    (i k : Nat) : Nat → Complex K :=
  fun j => if i ≤ j ∧ j < k then zBefore c (j + 1) else orbit j

/-- The seeds the successive calls of `mandel_rand` return on the draws, for at
most `fuel` calls (each call takes at least two draws, so `draws.length` calls
use them up). -/
def seeds {K : Type} [LinearOrderedField K] (m : Libm K) : Nat → List Nat → List (Complex K)
  | 0, _ => []
  | fuel + 1, draws =>
    match mandel_rand m draws with
    | none => []
    | some (c, rest) => c :: seeds m fuel rest

/-! ## What `retrace` never assigns -/

/-- The fields of a `Buddha` that `retrace` never assigns. -/
def SameConfig (b b' : Buddha) : Prop :=
  b'.threshold = b.threshold ∧ b'.samples = b.samples ∧
    b'.canvas.width = b.canvas.width ∧ b'.canvas.height = b.canvas.height

/-! ## Lemmas: what `retrace` and `iterate` leave unchanged -/

/-- A step-wise property of an `Option`-valued left fold. -/
theorem foldlM_option_rel {σ α : Type} (f : σ → α → Option σ) (R : σ → σ → Prop)
    (hrefl : ∀ s, R s s) (htrans : ∀ a b c, R a b → R b c → R a c)
    (hstep : ∀ s a s', f s a = some s' → R s s') :
    ∀ (l : List α) (s s' : σ), l.foldlM f s = some s' → R s s' := by
  intro l
  induction l with
  | nil =>
    intro s s' h
    simp only [List.foldlM_nil] at h
    cases h
    exact hrefl s
  | cons a l ih =>
    intro s s' h
    simp only [List.foldlM_cons] at h
    cases hfa : f s a with
    | none => simp [hfa] at h
    | some s1 =>
      simp only [hfa] at h
      exact htrans _ _ _ (hstep _ _ _ hfa) (ih _ _ h)

theorem SameConfig.refl (b : Buddha) : SameConfig b b := ⟨rfl, rfl, rfl, rfl⟩

theorem SameConfig.trans {a b c : Buddha} (h1 : SameConfig a b) (h2 : SameConfig b c) :
    SameConfig a c :=
  ⟨h2.1.trans h1.1, h2.2.1.trans h1.2.1, h2.2.2.1.trans h1.2.2.1, h2.2.2.2.trans h1.2.2.2⟩

theorem incr_sameConfig {b b' : Buddha} {x y : Int} {f : Color → Color}
    (h : b.incr x y f = some b') : SameConfig b b' := by
  unfold Buddha.incr at h
  split at h
  · cases h; exact ⟨rfl, rfl, rfl, rfl⟩
  · cases h

theorem guarded_incr_sameConfig {b b' : Buddha} {x y : Int} {f : Color → Color} {p : Prop}
    [Decidable p] (h : (if p then b.incr x y f else some b) = some b') : SameConfig b b' := by
  split at h
  · exact incr_sameConfig h
  · cases h; exact SameConfig.refl b

theorem retrace_body_sameConfig {K : Type} [LinearOrderedField K] [FloorRing K]
    (orbit : Nat → Complex K) (b : Buddha) (i : Nat) (b' : Buddha)
    (h : retrace_body orbit b i = some b') : SameConfig b b' := by
  unfold retrace_body at h
  simp only [Option.bind_eq_some] at h
  obtain ⟨b1, h1, b2, h2, h3⟩ := h
  exact (guarded_incr_sameConfig h1).trans
    ((guarded_incr_sameConfig h2).trans (guarded_incr_sameConfig h3))

theorem retrace_sameConfig {K : Type} [LinearOrderedField K] [FloorRing K]
    {b b' : Buddha} {orbit : Nat → Complex K} {length : Int}
    (h : retrace b orbit length = some b') : SameConfig b b' :=
  foldlM_option_rel (retrace_body orbit) SameConfig SameConfig.refl
    (fun _ _ _ => SameConfig.trans) (retrace_body_sameConfig orbit) _ _ _ h

theorem trial_sameConfig {K : Type} [LinearOrderedField K] [FloorRing K]
    {b b' : Buddha} {count count' : Int} {orbit orbit' : Nat → Complex K} {c : Complex K}
    (h : trial b count orbit c = some (b', count', orbit')) : SameConfig b b' := by
  unfold trial at h
  split at h
  · simp only [Option.map_eq_some'] at h
    obtain ⟨b1, h1, h2⟩ := h
    cases h2
    exact retrace_sameConfig h1
  · cases h; exact SameConfig.refl b

theorem while_loop_sameConfig {K : Type} [LinearOrderedField K] [FloorRing K] (m : Libm K) :
    ∀ (fuel : Nat) (b : Buddha) (count : Int) (orbit : Nat → Complex K) (draws : List Nat)
      (b' : Buddha) (n : Int),
      (while_loop m fuel b count orbit draws = Outcome.exited b' n ∨
        while_loop m fuel b count orbit draws = Outcome.starved b' n) → SameConfig b b' := by
  intro fuel
  induction fuel with
  | zero =>
    intro b count orbit draws b' n h
    unfold while_loop at h
    split at h <;> rcases h with h | h <;> cases h <;> exact SameConfig.refl b
  | succ fuel ih =>
    intro b count orbit draws b' n h
    unfold while_loop at h
    split at h
    · split at h
      · rcases h with h | h <;> cases h; exact SameConfig.refl b
      · split at h
        · rcases h with h | h <;> cases h
        · rename_i hm b1 count1 orbit1 ht
          exact (trial_sameConfig ht).trans (ih _ _ _ _ _ _ h)
    · rcases h with h | h <;> cases h; exact SameConfig.refl b

/-! ## Lemmas: the `for` loop of `iterate` -/

theorem fill_empty {K : Type} [LinearOrderedField K] (c : Complex K) (orbit : Nat → Complex K)
    (i : Nat) : fill c orbit i i = orbit := by
  funext j
  unfold fill
  split_ifs with h
  · omega
  · rfl

theorem fill_update {K : Type} [LinearOrderedField K] (c : Complex K)
    (orbit : Nat → Complex K) (i k : Nat) (hik : i < k) :
    fill c (Function.update orbit i (zBefore c (i + 1))) (i + 1) k = fill c orbit i k := by
  funext j
  unfold fill
  by_cases hj : j = i
  · subst hj
    simp [hik]
  · rw [Function.update_noteq hj]
    by_cases h1 : i + 1 ≤ j ∧ j < k
    · rw [if_pos h1, if_pos ⟨by omega, h1.2⟩]
    · rw [if_neg h1, if_neg (by omega)]

/-- The `for` loop runs to its end when no tested value has escaped. -/
theorem for_loop_none {K : Type} [LinearOrderedField K] (c : Complex K) :
    ∀ (n i : Nat) (orbit : Nat → Complex K),
      (∀ j, i ≤ j → j < i + n → normSq (zBefore c j) ≤ 4) →
      for_loop c n i (zBefore c i) orbit = (fill c orbit i (i + n), none) := by
  intro n
  induction n with
  | zero =>
    intro i orbit _
    simp [for_loop, fill_empty]
  | succ n ih =>
    intro i orbit h
    have hi : ¬ (zBefore c i).real * (zBefore c i).real
        + (zBefore c i).imag * (zBefore c i).imag > 4 :=
      not_lt.mpr (h i le_rfl (by omega))
    rw [for_loop]
    simp only [if_neg hi]
    have := ih (i + 1) (Function.update orbit i (zBefore c (i + 1)))
      (fun j h1 h2 => h j (by omega) (by omega))
    rw [fill_update c orbit i (i + 1 + n) (by omega)] at this
    rw [show i + (n + 1) = i + 1 + n by omega]
    exact this

/-- The `for` loop breaks at the first round whose starting `z` has escaped. -/
theorem for_loop_some {K : Type} [LinearOrderedField K] (c : Complex K) :
    ∀ (n i k : Nat) (orbit : Nat → Complex K), i ≤ k → k < i + n →
      4 < normSq (zBefore c k) → (∀ j, i ≤ j → j < k → normSq (zBefore c j) ≤ 4) →
      for_loop c n i (zBefore c i) orbit = (fill c orbit i (k + 1), some k) := by
  intro n
  induction n with
  | zero => intro i k orbit h1 h2; omega
  | succ n ih =>
    intro i k orbit hik hkn hk hlt
    rw [for_loop]
    by_cases hi : (zBefore c i).real * (zBefore c i).real
        + (zBefore c i).imag * (zBefore c i).imag > 4
    · simp only [if_pos hi]
      have hki : k = i := by
        by_contra hne
        exact absurd hi (not_lt.mpr (hlt i le_rfl (by omega)))
      subst hki
      have := fill_update c orbit k (k + 1) (by omega)
      rw [fill_empty] at this
      rw [← this]
      rfl
    · simp only [if_neg hi]
      have hne : k ≠ i := by
        rintro rfl
        exact hi hk
      have := ih (i + 1) k (Function.update orbit i (zBefore c (i + 1))) (by omega) (by omega) hk
        (fun j h1 h2 => hlt j (by omega) h2)
      rw [fill_update c orbit i (k + 1) (by omega)] at this
      exact this

/-- One round of `mandel_rand` over the reals, with `pow(·, 2)` as a square and
the `int` quotient `1 / 16` as `0`. -/
theorem mandel_rand_real_cons (R r1 r2 : Nat) (rest : List Nat) :
    mandel_rand (realLibm R) (r1 :: r2 :: rest) =
      (let theta := 2 * Real.pi * ((r1 : ℝ) / (R : ℝ))
       let radius := 2 * ((r2 : ℝ) / (R : ℝ))
       let c : Complex ℝ := ⟨Real.cos theta * radius, Real.sin theta * radius⟩
       let q := (c.real - 0.25) ^ 2 + c.imag ^ 2
       if q * (q + c.real - 0.25) ≤ 0.25 * c.imag ^ 2 ∨ (c.real + 1) ^ 2 + c.imag ^ 2 ≤ 0 then
         mandel_rand (realLibm R) rest
       else some (c, rest)) := by
  rw [mandel_rand]
  simp [realLibm]

/-- The index at which the `for` loop breaks lies among the rounds it runs. -/
theorem for_loop_index {K : Type} [LinearOrderedField K] (c : Complex K) :
    ∀ (n i : Nat) (z : Complex K) (orbit orbit1 : Nat → Complex K) (k : Nat),
      for_loop c n i z orbit = (orbit1, some k) → i ≤ k ∧ k < i + n := by
  intro n
  induction n with
  | zero =>
    intro i z orbit orbit1 k h
    simp [for_loop] at h
  | succ n ih =>
    intro i z orbit orbit1 k h
    rw [for_loop] at h
    split at h
    · simp only [Prod.mk.injEq, Option.some.injEq] at h
      omega
    · have := ih _ _ _ _ _ h
      omega

/-- A seed with `|c|² ≤ 4` is not accepted at index `0` or `1`. -/
theorem for_loop_index_ge_two {K : Type} [LinearOrderedField K] (c : Complex K)
    (hc : normSq c ≤ 4) (n : Nat) (orbit orbit1 : Nat → Complex K) (k : Nat)
    (h : for_loop c n 0 ⟨0, 0⟩ orbit = (orbit1, some k)) : 2 ≤ k := by
  have h4 : ¬ ((0 : K) * 0 + 0 * 0 > 4) := by norm_num
  have hc' : ¬ ((0 * 0 - 0 * 0 + c.real) * (0 * 0 - 0 * 0 + c.real)
      + (2 * 0 * 0 + c.imag) * (2 * 0 * 0 + c.imag) > 4) := by
    simp only [normSq] at hc
    simpa using hc
  match n, h with
  | 0, h => simp [for_loop] at h
  | 1, h =>
    rw [for_loop] at h
    simp only [if_neg h4] at h
    simp [for_loop] at h
  | n + 2, h =>
    rw [for_loop] at h
    simp only [if_neg h4] at h
    rw [for_loop] at h
    simp only [if_neg hc'] at h
    have := for_loop_index c _ _ _ _ _ _ h
    omega

/-- With `threshold.max ≤ 2` a seed with `|c|² ≤ 4` is never accepted. -/
theorem trial_discards_small_max {K : Type} [LinearOrderedField K] [FloorRing K]
    (b : Buddha) (hmax : b.threshold.max ≤ 2) (count : Int) (orbit : Nat → Complex K)
    (c : Complex K) (hc : normSq c ≤ 4) :
    ∃ orbit1, trial b count orbit c = some (b, count, orbit1) := by
  unfold trial
  split
  · rename_i orbit1 i hloop
    have h1 := for_loop_index_ge_two c hc _ _ _ _ hloop
    have h2 := for_loop_index c _ _ _ _ _ _ hloop
    omega
  · rename_i orbit1 hloop
    exact ⟨orbit1, rfl⟩

/-- Truncation leaves an integer value as it is. -/
theorem trunc_intCast {K : Type} [LinearOrderedField K] [FloorRing K] (n : Int) :
    trunc (n : K) = n := by
  unfold trunc
  split_ifs <;> simp

/-- A point with `real = 2` is mapped to the column `x = width`. -/
theorem pixelX_real_two {K : Type} [LinearOrderedField K] [FloorRing K] (width : Int) (y : K) :
    pixelX width (⟨2, y⟩ : Complex K) = width := by
  have h : ((width : K) * ((2 : K) + 2) / 4) = (width : K) := by
    rw [show ((2 : K) + 2) = 4 by norm_num, mul_div_assoc, div_self (by norm_num), mul_one]
  simp only [pixelX]
  rw [h, trunc_intCast]

/-- An increment in the column `x = width` is outside the allocation. -/
theorem incr_at_width (b : Buddha) (y : Int) (f : Color → Color) :
    b.incr b.canvas.width y f = none := by
  simp [Buddha.incr]

theorem smoothstep_real (R : Nat) (x : Int) :
    smoothstep (realLibm R) x = trunc (smoothValue x) := rfl

theorem smoothValue_pos (x : Int) : 0 < smoothValue x := by
  have h : 0 < (2 : ℝ) ^ (-2 * (realCbrt (x : ℝ) - 5)) := Real.rpow_pos_of_pos (by norm_num) _
  unfold smoothValue
  positivity

theorem trunc_mono_of_nonneg {K : Type} [LinearOrderedField K] [FloorRing K] {a b : K}
    (ha : 0 ≤ a) (hab : a ≤ b) : trunc a ≤ trunc b := by
  unfold trunc
  rw [if_pos ha, if_pos (ha.trans hab)]
  exact Int.floor_le_floor hab

theorem realCbrt_mono_of_nonneg {a b : ℝ} (ha : 0 ≤ a) (hab : a ≤ b) :
    realCbrt a ≤ realCbrt b := by
  unfold realCbrt
  rw [if_pos ha, if_pos (ha.trans hab)]
  exact Real.rpow_le_rpow ha hab (by norm_num)

theorem smoothValue_mono {x y : Int} (hx : 0 ≤ x) (hxy : x ≤ y) :
    smoothValue x ≤ smoothValue y := by
  have hc : realCbrt (x : ℝ) ≤ realCbrt (y : ℝ) :=
    realCbrt_mono_of_nonneg (by exact_mod_cast hx) (by exact_mod_cast hxy)
  have he : (2 : ℝ) ^ (-2 * (realCbrt (y : ℝ) - 5)) ≤ (2 : ℝ) ^ (-2 * (realCbrt (x : ℝ) - 5)) :=
    Real.rpow_le_rpow_of_exponent_le (by norm_num) (by linarith)
  have hy : 0 < (2 : ℝ) ^ (-2 * (realCbrt (y : ℝ) - 5)) := Real.rpow_pos_of_pos (by norm_num) _
  unfold smoothValue
  exact div_le_div_of_nonneg_left (by norm_num) (by linarith) (by linarith)

/-! ## Lemmas: the loops of `main` -/

theorem shorts_nil : shorts [] = [] := rfl

theorem shorts_cons (p : Color) (l : List Color) :
    shorts (p :: l) = p.red :: p.green :: p.blue :: shorts l := rfl

theorem shorts_append (l l' : List Color) : shorts (l ++ l') = shorts l ++ shorts l' := by
  simp [shorts]

theorem shorts_length (l : List Color) : (shorts l).length = 3 * l.length := by
  induction l with
  | nil => rfl
  | cons p l ih => simp only [shorts_cons, List.length_cons, ih]; omega

/-- A left fold that appends a block per element builds the concatenation. -/
theorem foldl_append_blocks {α β : Type} (G : α → List β) :
    ∀ (l : List α) (f : List β), l.foldl (fun f a => f ++ G a) f = f ++ l.flatMap G := by
  intro l
  induction l with
  | nil => intro f; simp
  | cons a l ih =>
    intro f
    rw [List.foldl_cons, ih, List.flatMap_cons, List.append_assoc]

theorem shorts_map (g : Nat → Color) (l : List Nat) :
    shorts (l.map g) = l.flatMap fun y => [(g y).red, (g y).green, (g y).blue] := by
  induction l with
  | nil => rfl
  | cons y l ih => rw [List.map_cons, shorts_cons, ih]; rfl

/-- The inner write loop appends the pixels of one column. -/
theorem write_inner (g : Nat → Color) (l : List Nat) (f : List Int) :
    l.foldl (fun f y => fwrite_color (g y) f) f = f ++ shorts (l.map g) := by
  rw [shorts_map]
  exact foldl_append_blocks (fun y => [(g y).red, (g y).green, (g y).blue]) l f

/-- The outer write loop appends the columns in turn. -/
theorem write_outer (data : Nat → Nat → Color) (ys : List Nat) (l : List Nat) (f : List Int) :
    l.foldl (fun f x => ys.foldl (fun f y => fwrite_color (data x y) f) f) f
      = f ++ shorts (l.flatMap fun x => ys.map fun y => data x y) := by
  have hfun : (fun (f : List Int) x => ys.foldl (fun f y => fwrite_color (data x y) f) f)
      = fun f x => f ++ shorts (ys.map fun y => data x y) := by
    funext f x
    exact write_inner (fun y => data x y) ys f
  rw [hfun, foldl_append_blocks]
  congr 1
  induction l with
  | nil => rfl
  | cons x l ih => rw [List.flatMap_cons, List.flatMap_cons, shorts_append, ih]

/-- The write loop of generate mode lists the pixels `x` outer, `y` inner. -/
theorem write_loop_eq (canvas : Canvas) : write_loop canvas = shorts (pixels canvas) := by
  unfold write_loop pixels
  rw [write_outer]
  simp

theorem grid_length (g : Nat → Nat → Color) (h : Nat) :
    ∀ w : Nat, ((List.range w).flatMap fun x => (List.range h).map fun y => g x y).length
      = w * h := by
  intro w
  induction w with
  | zero => simp
  | succ w ih =>
    rw [List.range_succ, List.flatMap_append, List.length_append, ih]
    simp [Nat.succ_mul]

/-- Pixel `(x, y)` is entry `x * h + y` of the `x`-outer, `y`-inner listing. -/
theorem grid_getElem? (g : Nat → Nat → Color) (h : Nat) :
    ∀ (w x y : Nat), x < w → y < h →
      ((List.range w).flatMap fun x => (List.range h).map fun y => g x y)[x * h + y]?
        = some (g x y) := by
  intro w
  induction w with
  | zero => intro x y hx; omega
  | succ w ih =>
    intro x y hx hy
    rw [List.range_succ, List.flatMap_append]
    by_cases hxw : x < w
    · have hlt : x * h + y < w * h := by
        calc x * h + y < x * h + h := by omega
          _ = (x + 1) * h := by ring
          _ ≤ w * h := Nat.mul_le_mul_right h hxw
      rw [List.getElem?_append_left (by rw [grid_length]; exact hlt)]
      exact ih x y hxw hy
    · have hxe : x = w := by omega
      subst hxe
      rw [List.getElem?_append_right (by rw [grid_length]; omega), grid_length]
      simp [hy]

theorem pixels_length (canvas : Canvas) :
    (pixels canvas).length = canvas.width.toNat * canvas.height.toNat :=
  grid_length canvas.data _ _

theorem pixels_getElem? (canvas : Canvas) (x y : Nat) (hx : x < canvas.width.toNat)
    (hy : y < canvas.height.toNat) :
    (pixels canvas)[x * canvas.height.toNat + y]? = some (canvas.data x y) :=
  grid_getElem? canvas.data _ _ x y hx hy

/-- One pass of render mode's loop body on a file that starts with a pixel. -/
theorem render_pixel_cons {K : Type} [LinearOrderedField K] [FloorRing K] (m : Libm K)
    (p : Color) (rest out : List Int) (bufs : List Color) :
    render_pixel m ⟨shorts [p] ++ rest, out, bufs⟩
      = some ⟨rest, out ++ shorts [prettify m p], bufs ++ [p]⟩ := by
  cases p
  rfl

/-- Render mode's inner loop consumes one pixel per round. -/
theorem render_inner {K : Type} [LinearOrderedField K] [FloorRing K] (m : Libm K) {α : Type} :
    ∀ (l : List α) (ts : List Color), l.length = ts.length →
      ∀ (rest out : List Int) (bufs : List Color),
        l.foldlM (fun s _ => render_pixel m s) ⟨shorts ts ++ rest, out, bufs⟩
          = some ⟨rest, out ++ shorts (ts.map (prettify m)), bufs ++ ts⟩ := by
  intro l
  induction l with
  | nil =>
    intro ts hlen rest out bufs
    have : ts = [] := List.length_eq_zero.mp hlen.symm
    subst this
    simp [shorts_nil]
  | cons a l ih =>
    intro ts hlen rest out bufs
    match ts, hlen with
    | p :: ts, hlen =>
      have hcons : shorts (p :: ts) ++ rest = shorts [p] ++ (shorts ts ++ rest) := by
        rw [← List.append_assoc, ← shorts_append]; rfl
      rw [List.foldlM_cons, hcons, render_pixel_cons]
      simp only [Option.some_bind, Option.bind_eq_bind]
      rw [ih ts (by simpa using hlen)]
      simp [shorts_append, shorts_cons, shorts_nil]

/-- Render mode's nested loops consume `height` pixels per outer round. -/
theorem render_outer {K : Type} [LinearOrderedField K] [FloorRing K] (m : Libm K)
    {α β : Type} (ys : List β) :
    ∀ (l : List α) (ts : List Color), ts.length = l.length * ys.length →
      ∀ (rest out : List Int) (bufs : List Color),
        l.foldlM (fun s _ => ys.foldlM (fun s _ => render_pixel m s) s)
            ⟨shorts ts ++ rest, out, bufs⟩
          = some ⟨rest, out ++ shorts (ts.map (prettify m)), bufs ++ ts⟩ := by
  intro l
  induction l with
  | nil =>
    intro ts hlen rest out bufs
    have : ts = [] := List.length_eq_zero.mp (by simpa using hlen)
    subst this
    simp [shorts_nil]
  | cons a l ih =>
    intro ts hlen rest out bufs
    have hsplit : ts = ts.take ys.length ++ ts.drop ys.length := (List.take_append_drop _ _).symm
    have htake : ys.length = (ts.take ys.length).length := by
      rw [List.length_take, hlen, List.length_cons]
      have : ys.length ≤ (l.length + 1) * ys.length := Nat.le_mul_of_pos_left _ (by omega)
      omega
    have hdrop : (ts.drop ys.length).length = l.length * ys.length := by
      rw [List.length_drop, hlen, List.length_cons, Nat.succ_mul]
      omega
    rw [List.foldlM_cons]
    conv_lhs => rw [hsplit, shorts_append, List.append_assoc]
    rw [render_inner m ys _ htake]
    simp only [Option.some_bind, Option.bind_eq_bind]
    rw [ih _ hdrop]
    simp only [List.append_assoc, ← shorts_append, ← List.map_append, List.take_append_drop]

/-- Render mode's loops on a file of `width * height` pixels. -/
theorem render_loop_eq {K : Type} [LinearOrderedField K] [FloorRing K] (m : Libm K)
    (width height : Nat) (ts : List Color) (hts : ts.length = width * height) :
    render_loop m width height ⟨shorts ts, [], []⟩
      = some ⟨[], shorts (ts.map (prettify m)), ts⟩ := by
  have h := render_outer m (List.range height) (List.range width) ts
    (by simpa using hts) [] [] []
  simpa [render_loop] using h

/-- The header `fprintf` writes for non-negative dimensions. -/
theorem ppm_header_natCast (width height : Nat) :
    ppm_header width height
      = "P6\t" ++ Nat.repr width ++ "\t" ++ Nat.repr height ++ "\t32767\n" := by
  have h : toString SHRT_MAX = "32767" := by decide
  unfold ppm_header
  rw [h]
  simp only [String.append_assoc]
  rfl

/-! ## Lemmas: the counters under `retrace` -/

theorem wrap16_succ (n : Int) : wrap16 (wrap16 n + 1) = wrap16 (n + 1) := by
  unfold wrap16
  omega

theorem wrap16_of_small (n : Int) (h0 : 0 ≤ n) (h1 : n ≤ 32767) : wrap16 n = n := by
  unfold wrap16
  omega

/-- What a guarded increment does to the pixels. -/
theorem guarded_incr_data {b b' : Buddha} {x y : Int} {f : Color → Color} {p : Prop}
    [Decidable p] (h : (if p then b.incr x y f else some b) = some b') (u v : Nat) :
    b'.canvas.data u v
      = if p ∧ x = (u : Int) ∧ y = (v : Int) then f (b.canvas.data u v)
        else b.canvas.data u v := by
  by_cases hp : p
  · rw [if_pos hp] at h
    unfold Buddha.incr at h
    split at h
    · rename_i hr
      cases h
      simp only [hp, true_and]
      have e : (u = x.toNat ∧ v = y.toNat) ↔ (x = (u : Int) ∧ y = (v : Int)) := by
        constructor <;> rintro ⟨h1, h2⟩ <;> constructor <;> omega
      by_cases huv : u = x.toNat ∧ v = y.toNat
      · rw [if_pos huv, if_pos (e.mp huv)]
      · rw [if_neg huv, if_neg (fun hc => huv (e.mpr hc))]
    · cases h
  · rw [if_neg hp] at h
    cases h
    rw [if_neg (fun hc => hp hc.1)]

theorem hitsIn_nil {K : Type} [LinearOrderedField K] [FloorRing K] (width height limit : Int)
    (orbit : Nat → Complex K) (u v : Nat) : hitsIn width height limit orbit [] u v = 0 := rfl

theorem hitsIn_cons {K : Type} [LinearOrderedField K] [FloorRing K] (width height limit : Int)
    (orbit : Nat → Complex K) (i : Nat) (is : List Nat) (u v : Nat) :
    hitsIn width height limit orbit (i :: is) u v
      = hitsIn width height limit orbit is u v +
        (if (i : Int) < limit ∧ pixelX width (orbit i) = (u : Int) ∧
          pixelY height (orbit i) = (v : Int) then 1 else 0) := by
  unfold hitsIn
  rw [List.countP_cons]
  simp only [decide_eq_true_eq]

/-- One round of `retrace` adds to each ghost count the hit of that round. -/
theorem retrace_body_tracks {K : Type} [LinearOrderedField K] [FloorRing K]
    (orbit : Nat → Complex K) (b b' : Buddha) (i : Nat) (R G B : Nat → Nat → Nat)
    (ht : Tracks b R G B) (h : retrace_body orbit b i = some b') :
    Tracks b'
      (fun u v => R u v + hitsIn b.canvas.width b.canvas.height b.threshold.red orbit [i] u v)
      (fun u v => G u v + hitsIn b.canvas.width b.canvas.height b.threshold.green orbit [i] u v)
      (fun u v => B u v + hitsIn b.canvas.width b.canvas.height b.threshold.blue orbit [i] u v) := by
  unfold retrace_body at h
  simp only [Option.bind_eq_some] at h
  obtain ⟨b1, h1, b2, h2, h3⟩ := h
  have c1 := guarded_incr_sameConfig h1
  have c2 := guarded_incr_sameConfig h2
  intro u v
  rw [guarded_incr_data h3 u v, guarded_incr_data h2 u v, guarded_incr_data h1 u v, ht u v,
    c2.1, c1.1]
  simp only [hitsIn_cons, hitsIn_nil, Nat.zero_add]
  by_cases hx : pixelX b.canvas.width (orbit i) = (u : Int)
  · by_cases hy : pixelY b.canvas.height (orbit i) = (v : Int)
    · by_cases hr : (i : Int) < b.threshold.red <;>
      by_cases hg : (i : Int) < b.threshold.green <;>
      by_cases hb : (i : Int) < b.threshold.blue <;>
      simp [hx, hy, hr, hg, hb, Color.incRed, Color.incGreen, Color.incBlue, wrap16_succ]
    · simp [hx, hy]
  · simp [hx]

theorem hitsIn_singleton_add {K : Type} [LinearOrderedField K] [FloorRing K]
    (width height limit : Int) (orbit : Nat → Complex K) (i : Nat) (is : List Nat) (u v : Nat) :
    hitsIn width height limit orbit (i :: is) u v
      = hitsIn width height limit orbit [i] u v + hitsIn width height limit orbit is u v := by
  rw [hitsIn_cons, hitsIn_cons, hitsIn_nil]
  omega

/-- The loop of `retrace` over the indices `is` adds their hits to the ghost counts. -/
theorem retrace_loop_tracks {K : Type} [LinearOrderedField K] [FloorRing K]
    (orbit : Nat → Complex K) :
    ∀ (is : List Nat) (b b' : Buddha) (R G B : Nat → Nat → Nat), Tracks b R G B →
      is.foldlM (retrace_body orbit) b = some b' →
      Tracks b'
        (fun u v => R u v + hitsIn b.canvas.width b.canvas.height b.threshold.red orbit is u v)
        (fun u v => G u v + hitsIn b.canvas.width b.canvas.height b.threshold.green orbit is u v)
        (fun u v => B u v + hitsIn b.canvas.width b.canvas.height b.threshold.blue orbit is u v) := by
  intro is
  induction is with
  | nil =>
    intro b b' R G B ht h
    simp only [List.foldlM_nil] at h
    cases h
    simpa [hitsIn_nil] using ht
  | cons i is ih =>
    intro b b' R G B ht h
    simp only [List.foldlM_cons] at h
    cases hb : retrace_body orbit b i with
    | none => simp [hb] at h
    | some b1 =>
      simp only [hb] at h
      have c := retrace_body_sameConfig orbit b i b1 hb
      have t1 := retrace_body_tracks orbit b b1 i R G B ht hb
      have t2 := ih b1 b' _ _ _ t1 h
      rw [c.1, c.2.2.1, c.2.2.2] at t2
      intro u v
      rw [t2 u v]
      simp only [hitsIn_singleton_add _ _ _ orbit i is, Nat.add_assoc]

theorem hits_nil {K : Type} [LinearOrderedField K] [FloorRing K] (width height limit : Int)
    (u v : Nat) : hits width height limit ([] : List ((Nat → Complex K) × Int)) u v = 0 := rfl

theorem hits_cons {K : Type} [LinearOrderedField K] [FloorRing K] (width height limit : Int)
    (call : (Nat → Complex K) × Int) (calls : List ((Nat → Complex K) × Int)) (u v : Nat) :
    hits width height limit (call :: calls) u v
      = hitsIn width height limit call.1 (List.range call.2.toNat) u v
        + hits width height limit calls u v := by
  simp [hits]

/-- A sequence of `retrace` calls adds its hits to the ghost counts. -/
theorem run_retraces_tracks {K : Type} [LinearOrderedField K] [FloorRing K] :
    ∀ (calls : List ((Nat → Complex K) × Int)) (b b' : Buddha) (R G B : Nat → Nat → Nat),
      Tracks b R G B → run_retraces b calls = some b' →
      SameConfig b b' ∧
      Tracks b'
        (fun u v => R u v + hits b.canvas.width b.canvas.height b.threshold.red calls u v)
        (fun u v => G u v + hits b.canvas.width b.canvas.height b.threshold.green calls u v)
        (fun u v => B u v + hits b.canvas.width b.canvas.height b.threshold.blue calls u v) := by
  intro calls
  induction calls with
  | nil =>
    intro b b' R G B ht h
    simp only [run_retraces, List.foldlM_nil] at h
    cases h
    exact ⟨SameConfig.refl b, by simpa [hits_nil] using ht⟩
  | cons call calls ih =>
    intro b b' R G B ht h
    simp only [run_retraces, List.foldlM_cons] at h
    cases hb : retrace b call.1 call.2 with
    | none => simp [hb] at h
    | some b1 =>
      simp only [hb] at h
      have c := retrace_sameConfig hb
      have t1 := retrace_loop_tracks call.1 _ b b1 R G B ht hb
      obtain ⟨c2, t2⟩ := ih b1 b' _ _ _ t1 h
      rw [c.1, c.2.2.1, c.2.2.2] at t2
      refine ⟨c.trans c2, ?_⟩
      intro u v
      rw [t2 u v]
      simp only [hits_cons, Nat.add_assoc]

/-- A lower channel threshold gets no more hits. -/
theorem hits_mono {K : Type} [LinearOrderedField K] [FloorRing K] (width height : Int)
    {l1 l2 : Int} (hl : l1 ≤ l2) (calls : List ((Nat → Complex K) × Int)) (u v : Nat) :
    hits width height l1 calls u v ≤ hits width height l2 calls u v := by
  induction calls with
  | nil => simp [hits_nil]
  | cons call calls ih =>
    rw [hits_cons, hits_cons]
    refine Nat.add_le_add ?_ ih
    unfold hitsIn
    apply List.countP_mono_left
    intro i _ hi
    simp only [decide_eq_true_eq] at hi ⊢
    exact ⟨lt_of_lt_of_le hi.1 hl, hi.2⟩

theorem calloc_tracks (width height : Int) (t : Threshold) (samples : Int) :
    Tracks ⟨calloc_canvas width height, t, samples⟩ (fun _ _ => 0) (fun _ _ => 0)
      (fun _ _ => 0) := by
  intro u v
  simp [calloc_canvas, wrap16]

/-- A guarded increment on the canvas does not fault. -/
theorem guarded_incr_some (b : Buddha) (x y : Int) (f : Color → Color) (p : Prop) [Decidable p]
    (hr : 0 ≤ x ∧ x < b.canvas.width ∧ 0 ≤ y ∧ y < b.canvas.height) :
    ∃ b', (if p then b.incr x y f else some b) = some b' := by
  by_cases hp : p
  · rw [if_pos hp]
    unfold Buddha.incr
    rw [if_pos hr]
    exact ⟨_, rfl⟩
  · rw [if_neg hp]
    exact ⟨_, rfl⟩

/-- One round of `retrace` on a point of the canvas does not fault. -/
theorem retrace_body_some {K : Type} [LinearOrderedField K] [FloorRing K]
    (orbit : Nat → Complex K) (b : Buddha) (i : Nat)
    (hr : 0 ≤ pixelX b.canvas.width (orbit i) ∧ pixelX b.canvas.width (orbit i) < b.canvas.width ∧
      0 ≤ pixelY b.canvas.height (orbit i) ∧
      pixelY b.canvas.height (orbit i) < b.canvas.height) :
    ∃ b', retrace_body orbit b i = some b' := by
  unfold retrace_body
  obtain ⟨b1, h1⟩ := guarded_incr_some b _ _ Color.incRed ((i : Int) < b.threshold.red) hr
  have c1 := guarded_incr_sameConfig h1
  obtain ⟨b2, h2⟩ := guarded_incr_some b1 (pixelX b.canvas.width (orbit i))
    (pixelY b.canvas.height (orbit i)) Color.incGreen ((i : Int) < b1.threshold.green)
    (by rw [c1.2.2.1, c1.2.2.2]; exact hr)
  have c2 := guarded_incr_sameConfig h2
  obtain ⟨b3, h3⟩ := guarded_incr_some b2 (pixelX b.canvas.width (orbit i))
    (pixelY b.canvas.height (orbit i)) Color.incBlue ((i : Int) < b2.threshold.blue)
    (by rw [c2.2.2.1, c2.2.2.2, c1.2.2.1, c1.2.2.2]; exact hr)
  exact ⟨b3, by simp only [h1, h2, h3, Option.some_bind]⟩

/-- The loop of `retrace` over points of the canvas does not fault. -/
theorem retrace_loop_some {K : Type} [LinearOrderedField K] [FloorRing K]
    (orbit : Nat → Complex K) :
    ∀ (is : List Nat) (b : Buddha),
      (∀ i ∈ is, 0 ≤ pixelX b.canvas.width (orbit i) ∧
        pixelX b.canvas.width (orbit i) < b.canvas.width ∧
        0 ≤ pixelY b.canvas.height (orbit i) ∧
        pixelY b.canvas.height (orbit i) < b.canvas.height) →
      ∃ b', is.foldlM (retrace_body orbit) b = some b' := by
  intro is
  induction is with
  | nil => intro b _; exact ⟨b, rfl⟩
  | cons i is ih =>
    intro b hr
    obtain ⟨b1, h1⟩ := retrace_body_some orbit b i (hr i (List.mem_cons_self _ _))
    have c := retrace_body_sameConfig orbit b i b1 h1
    obtain ⟨b2, h2⟩ := ih b1 (fun j hj => by
      rw [c.2.2.1, c.2.2.2]; exact hr j (List.mem_cons_of_mem _ hj))
    exact ⟨b2, by simp only [List.foldlM_cons, h1, Option.some_bind, Option.bind_eq_bind, h2]⟩

/-- A sequence of `retrace` calls over points of the canvas does not fault. -/
theorem run_retraces_some {K : Type} [LinearOrderedField K] [FloorRing K] :
    ∀ (calls : List ((Nat → Complex K) × Int)) (b : Buddha),
      InRange b.canvas.width b.canvas.height calls → ∃ b', run_retraces b calls = some b' := by
  intro calls
  induction calls with
  | nil => intro b _; exact ⟨b, rfl⟩
  | cons call calls ih =>
    intro b hr
    obtain ⟨b1, h1⟩ := retrace_loop_some call.1 (List.range call.2.toNat) b
      (fun i hi => hr call (List.mem_cons_self _ _) i (List.mem_range.mp hi))
    have c := @retrace_sameConfig K _ _ b b1 call.1 call.2 h1
    obtain ⟨b2, h2⟩ := ih b1 (by
      rw [c.2.2.1, c.2.2.2]
      exact fun cl hcl => hr cl (List.mem_cons_of_mem _ hcl))
    refine ⟨b2, ?_⟩
    have h1' : retrace b call.1 call.2 = some b1 := h1
    simp only [run_retraces, List.foldlM_cons, h1', Option.some_bind, Option.bind_eq_bind]
    exact h2

/-- On a `1 × 1` canvas the origin falls on pixel `(0, 0)`. -/
theorem pixel_origin_unit :
    pixelX 1 (⟨0, 0⟩ : Complex ℚ) = 0 ∧ pixelY 1 (⟨0, 0⟩ : Complex ℚ) = 0 := by
  have h : trunc ((1 : ℚ) / 2) = 0 := by
    unfold trunc
    rw [if_pos (by norm_num), Int.floor_eq_iff]
    constructor <;> norm_num
  have e : (((1 : Int) : ℚ) * ((0 : ℚ) + 2) / 4) = 1 / 2 := by norm_num
  simp only [pixelX, pixelY, e, h, and_self]

/-- The hits of `n` copies of one call. -/
theorem hits_replicate {K : Type} [LinearOrderedField K] [FloorRing K]
    (width height limit : Int) (call : (Nat → Complex K) × Int) (u v : Nat) :
    ∀ n : Nat, hits width height limit (List.replicate n call) u v
      = n * hitsIn width height limit call.1 (List.range call.2.toNat) u v := by
  intro n
  induction n with
  | zero => simp [hits_nil]
  | succ n ih => rw [List.replicate_succ, hits_cons, ih]; ring

/-- On a zero `1 × 1` canvas with thresholds `(0, 0, 1)`, `n` calls
`retrace(orbit, 1)` at the origin leave `red` and `green` at `0` and `blue` at the
16-bit image of `n`. -/
theorem unit_canvas_run (n : Nat) :
    InRange 1 1 (List.replicate n ((fun _ => (⟨0, 0⟩ : Complex ℚ)), (1 : Int))) ∧
    ∃ b', run_retraces ⟨calloc_canvas 1 1, ⟨0, 0, 1, 1⟩, 1⟩
        (List.replicate n ((fun _ => (⟨0, 0⟩ : Complex ℚ)), (1 : Int))) = some b' ∧
      b'.canvas.data 0 0 = ⟨0, 0, wrap16 (n : Nat)⟩ := by
  have hin : InRange 1 1 (List.replicate n ((fun _ => (⟨0, 0⟩ : Complex ℚ)), (1 : Int))) := by
    intro call hcall i _
    rw [List.eq_of_mem_replicate hcall]
    simp only [pixel_origin_unit.1, pixel_origin_unit.2]
    decide
  obtain ⟨b', hrun⟩ := run_retraces_some _ ⟨calloc_canvas 1 1, ⟨0, 0, 1, 1⟩, 1⟩ hin
  have ht := (run_retraces_tracks _ _ b' _ _ _ (calloc_tracks 1 1 ⟨0, 0, 1, 1⟩ 1) hrun).2 0 0
  have hr1 : List.range (1 : Int).toNat = [0] := rfl
  have hg : hitsIn 1 1 0 (fun _ => (⟨0, 0⟩ : Complex ℚ)) (List.range (1 : Int).toNat) 0 0 = 0 := by
    rw [hr1, hitsIn_cons, hitsIn_nil]
    simp
  have hb : hitsIn 1 1 1 (fun _ => (⟨0, 0⟩ : Complex ℚ)) (List.range (1 : Int).toNat) 0 0 = 1 := by
    rw [hr1, hitsIn_cons, hitsIn_nil]
    simp [pixel_origin_unit.1, pixel_origin_unit.2]
  simp only [calloc_canvas, hits_replicate, hg, hb, Nat.zero_add, Nat.mul_zero,
    Nat.mul_one] at ht
  refine ⟨hin, b', hrun, ?_⟩
  rw [ht]
  simp [wrap16]

/-! ## Lemmas: the fuel of the loop, and the points that are safe -/

/-- Each call of `mandel_rand` that returns has used at least two draws. -/
theorem mandel_rand_length {K : Type} [LinearOrderedField K] (m : Libm K) :
    ∀ (draws : List Nat) (c : Complex K) (rest : List Nat),
      mandel_rand m draws = some (c, rest) → rest.length + 2 ≤ draws.length
  | [], _, _, h => by simp [mandel_rand] at h
  | [_], _, _, h => by simp [mandel_rand] at h
  | r1 :: r2 :: tl, c, rest, h => by
    rw [mandel_rand] at h
    simp only at h
    split at h
    · have := mandel_rand_length m tl c rest h
      simp only [List.length_cons]; omega
    · simp only [Option.some.injEq, Prod.mk.injEq] at h
      simp only [List.length_cons, ← h.2]; omega

/-- The fuel of `while_loop` does not matter once it covers the draws: the loop
of `iterate` is then decided by the draws alone. -/
theorem while_loop_fuel {K : Type} [LinearOrderedField K] [FloorRing K] (m : Libm K) :
    ∀ (n k : Nat) (b : Buddha) (count : Int) (orbit : Nat → Complex K) (draws : List Nat),
      draws.length ≤ n → draws.length ≤ k →
      while_loop m n b count orbit draws = while_loop m k b count orbit draws := by
  intro n
  induction n with
  | zero =>
    intro k b count orbit draws hn _
    have hd : draws = [] := List.length_eq_zero.mp (by omega)
    subst hd
    cases k with
    | zero => rfl
    | succ k => simp [while_loop, mandel_rand]
  | succ n ih =>
    intro k b count orbit draws hn hk
    cases k with
    | zero =>
      have hd : draws = [] := List.length_eq_zero.mp (by omega)
      subst hd
      simp [while_loop, mandel_rand]
    | succ k =>
      rw [while_loop, while_loop]
      split
      · cases hm : mandel_rand m draws with
        | none => rfl
        | some r =>
          obtain ⟨c, rest⟩ := r
          have hl := mandel_rand_length m draws c rest hm
          simp only
          cases ht : trial b count orbit c with
          | none => rfl
          | some r1 =>
            obtain ⟨b1, count1, orbit1⟩ := r1
            simp only
            exact ih k b1 count1 orbit1 rest (by omega) (by omega)
      · rfl

/-- A point with `-2 ≤ real < 2` is mapped to a column of the canvas. -/
theorem pixelX_in_range {K : Type} [LinearOrderedField K] [FloorRing K] (width : Int)
    (hw : 0 < width) (c : Complex K) (h0 : -2 ≤ c.real) (h2 : c.real < 2) :
    0 ≤ pixelX width c ∧ pixelX width c < width := by
  have hwK : (0 : K) < (width : K) := by exact_mod_cast hw
  have hv0 : 0 ≤ (width : K) * (c.real + 2) / 4 :=
    div_nonneg (mul_nonneg hwK.le (by linarith)) (by norm_num)
  have hv1 : (width : K) * (c.real + 2) / 4 < (width : K) := by
    rw [div_lt_iff₀ (by norm_num)]
    nlinarith
  unfold pixelX trunc
  rw [if_pos hv0]
  exact ⟨Int.floor_nonneg.mpr hv0, Int.floor_lt.mpr hv1⟩

/-- A point with `-2 ≤ imag < 2` is mapped to a row of the canvas. -/
theorem pixelY_in_range {K : Type} [LinearOrderedField K] [FloorRing K] (height : Int)
    (hh : 0 < height) (c : Complex K) (h0 : -2 ≤ c.imag) (h2 : c.imag < 2) :
    0 ≤ pixelY height c ∧ pixelY height c < height :=
  pixelX_in_range height hh ⟨c.imag, c.real⟩ h0 h2

/-! ## Lemmas: the pair of draws `mandel_rand` exits on, and a loop that never accepts -/

/-- With `threshold.max ≤ 2` and `count < samples`, as long as every seed
`mandel_rand` returns has `|c|² ≤ 4` the `while` loop never accepts a trial: when
the draws are used up it is still running, object and count as they were. -/
theorem while_loop_starves {K : Type} [LinearOrderedField K] [FloorRing K] (m : Libm K)
    (b : Buddha) (hmax : b.threshold.max ≤ 2) (count : Int) (hcount : count < b.samples) :
    ∀ (fuel : Nat) (orbit : Nat → Complex K) (draws : List Nat),
      (∀ c ∈ seeds m fuel draws, normSq c ≤ 4) →
      while_loop m fuel b count orbit draws = Outcome.starved b count := by
  intro fuel
  induction fuel with
  | zero =>
    intro orbit draws _
    simp [while_loop, hcount]
  | succ fuel ih =>
    intro orbit draws hs
    rw [while_loop]
    simp only [if_pos hcount]
    cases hm : mandel_rand m draws with
    | none => rfl
    | some r =>
      obtain ⟨c, rest⟩ := r
      have hseeds : seeds m (fuel + 1) draws = c :: seeds m fuel rest := by
        rw [seeds, hm]
      rw [hseeds] at hs
      obtain ⟨orbit1, ht⟩ := trial_discards_small_max b hmax count orbit c
        (hs c (List.mem_cons_self _ _))
      simp only [ht]
      exact ih orbit1 rest (fun c' hc' => hs c' (List.mem_cons_of_mem _ hc'))

/-! ## C1: the boundary `real = 2` in `retrace` -/

/-- C1, at the failing input: with `RAND_MAX = 2147483647` and the draws `0`,
`RAND_MAX`, `mandel_rand` returns `c = (2, 0)`; on a `4 × 4` canvas with
thresholds `(3, 3, 3)` and one sample the trial is accepted at index `2`,
`retrace` maps `orbit[0] = (2, 0)` to `x = 4 = width` and the access
`canvas.data[4][2]` is outside the allocation. -/
theorem retrace_indexes_past_width :
    mandel_rand (realLibm 2147483647) [0, 2147483647] = some (⟨2, 0⟩, []) ∧
    pixelX (Buddha.construct (calloc_canvas 4 4) ⟨3, 3, 3, 0⟩ 1).canvas.width
      (⟨2, 0⟩ : Complex ℝ) = 4 ∧
    iterate (realLibm 2147483647) (Buddha.construct (calloc_canvas 4 4) ⟨3, 3, 3, 0⟩ 1)
      (fun _ => ⟨0, 0⟩) [0, 2147483647] = Outcome.fault := by
  have hm : mandel_rand (realLibm 2147483647) [0, 2147483647] = some (⟨2, 0⟩, []) := by
    rw [mandel_rand_real_cons]
    norm_num
  have hbody : ∀ (orbit : Nat → Complex ℝ) (b : Buddha), orbit 0 = ⟨2, 0⟩ →
      (0 : Int) < b.threshold.red → retrace_body orbit b 0 = none := by
    intro orbit b ho hred
    simp only [retrace_body, ho, pixelX_real_two, Nat.cast_zero, if_pos hred, incr_at_width,
      Option.none_bind]
  refine ⟨hm, pixelX_real_two _ _, ?_⟩
  simp only [iterate, List.length_cons, List.length_nil]
  rw [while_loop]
  simp [hm, Buddha.construct, trial, for_loop]
  norm_num [retrace]
  rw [show List.range 1 = [0] from rfl, List.foldlM_cons,
    hbody _ _ (by simp [Function.update]) (by norm_num)]
  rfl

/-! ## C2: the order of the counters -/

/-- C2, amended: from a zero canvas, a sequence of `retrace` calls whose points
all lie on the canvas does not fault, and with thresholds `red ≤ green ≤ blue`
every pixel that has received at most `32767` blue increments (so that none of
its 16-bit counters has wrapped) holds `0 ≤ red ≤ green ≤ blue`, its `blue`
being that number of increments. -/
theorem counters_ordered_until_wrap {K : Type} [LinearOrderedField K] [FloorRing K]
    (width height : Int) (t : Threshold) (samples : Int) (hrg : t.red ≤ t.green)
    (hgb : t.green ≤ t.blue) (calls : List ((Nat → Complex K) × Int))
    (hin : InRange width height calls) :
    ∃ b', run_retraces ⟨calloc_canvas width height, t, samples⟩ calls = some b' ∧
      ∀ u v : Nat, hits width height t.blue calls u v ≤ 32767 →
        (b'.canvas.data u v).red ≤ (b'.canvas.data u v).green ∧
        (b'.canvas.data u v).green ≤ (b'.canvas.data u v).blue ∧
        0 ≤ (b'.canvas.data u v).red ∧
        (b'.canvas.data u v).blue = (hits width height t.blue calls u v : Nat) := by
  obtain ⟨b', hrun⟩ := run_retraces_some calls ⟨calloc_canvas width height, t, samples⟩ hin
  refine ⟨b', hrun, ?_⟩
  intro u v hno
  have ht := (run_retraces_tracks calls _ b' _ _ _ (calloc_tracks width height t samples) hrun).2
  have h1 : hits width height t.red calls u v ≤ hits width height t.green calls u v :=
    hits_mono width height hrg calls u v
  have h2 : hits width height t.green calls u v ≤ hits width height t.blue calls u v :=
    hits_mono width height hgb calls u v
  rw [ht u v]
  simp only [calloc_canvas, Nat.zero_add]
  rw [wrap16_of_small _ (by omega) (by omega), wrap16_of_small _ (by omega) (by omega),
    wrap16_of_small _ (by omega) (by omega)]
  refine ⟨?_, ?_, ?_, rfl⟩ <;> omega

/-- C2, the amended statement on a zero `1 × 1` canvas with thresholds
`(0, 0, 1)` and two calls `retrace(orbit, 1)` at the origin. -/
theorem counters_ordered_until_wrap_witness :
    ∃ b', run_retraces ⟨calloc_canvas 1 1, ⟨0, 0, 1, 1⟩, 1⟩
        (List.replicate 2 ((fun _ => (⟨0, 0⟩ : Complex ℚ)), (1 : Int))) = some b' ∧
      ∀ u v : Nat,
        hits 1 1 (⟨0, 0, 1, 1⟩ : Threshold).blue
          (List.replicate 2 ((fun _ => (⟨0, 0⟩ : Complex ℚ)), (1 : Int))) u v ≤ 32767 →
        (b'.canvas.data u v).red ≤ (b'.canvas.data u v).green ∧
        (b'.canvas.data u v).green ≤ (b'.canvas.data u v).blue ∧
        0 ≤ (b'.canvas.data u v).red ∧
        (b'.canvas.data u v).blue
          = (hits 1 1 (⟨0, 0, 1, 1⟩ : Threshold).blue
              (List.replicate 2 ((fun _ => (⟨0, 0⟩ : Complex ℚ)), (1 : Int))) u v : Nat) :=
  counters_ordered_until_wrap 1 1 ⟨0, 0, 1, 1⟩ 1 (by decide) (by decide)
    (List.replicate 2 ((fun _ => (⟨0, 0⟩ : Complex ℚ)), (1 : Int)))
    (by
      intro call hcall i _
      rw [List.eq_of_mem_replicate hcall]
      simp only [pixel_origin_unit.1, pixel_origin_unit.2]
      decide)

/-- C2, the claim as stated fails: on a zero `1 × 1` canvas with thresholds
`red = 0 ≤ green = 0 ≤ blue = 1`, after `32768` calls `retrace(orbit, 1)` with
`orbit[0] = (0, 0)` (a point of the canvas) the pixel holds `green = 0` and
`blue = -32768`: the 16-bit counter has wrapped and `green ≤ blue` is false. -/
theorem blue_counter_wraps :
    InRange 1 1 (List.replicate 32768 ((fun _ => (⟨0, 0⟩ : Complex ℚ)), (1 : Int))) ∧
    ∃ b', run_retraces ⟨calloc_canvas 1 1, ⟨0, 0, 1, 1⟩, 1⟩
        (List.replicate 32768 ((fun _ => (⟨0, 0⟩ : Complex ℚ)), (1 : Int))) = some b' ∧
      (b'.canvas.data 0 0).green = 0 ∧ (b'.canvas.data 0 0).blue = -32768 ∧
      ¬ (b'.canvas.data 0 0).green ≤ (b'.canvas.data 0 0).blue := by
  obtain ⟨hin, b', hrun, hd⟩ := unit_canvas_run 32768
  have hw : wrap16 ((32768 : Nat) : Int) = -32768 := by decide
  refine ⟨hin, b', hrun, ?_, ?_, ?_⟩
  · rw [hd]
  · rw [hd]; exact hw
  · rw [hd]; simp only [hw]; decide

/-! ## C3: the intermediate file -/

/-- C3: for every `width`, `height ≥ 0` and every grid, the write loop of generate
mode yields `width * height * 3` values of 16 bits (`width * height * 6` bytes),
and render mode's read loop on that file, for the same `width` and `height`,
reads it to its end and its `buffer` takes at round `(x, y)`, the round number
`x * height + y`, the triplet of pixel `(x, y)` of the grid. -/
theorem write_loop_read_back {K : Type} [LinearOrderedField K] [FloorRing K] (m : Libm K)
    (width height : Nat) (data : Nat → Nat → Color) :
    (write_loop ⟨width, height, data⟩).length = width * height * 3 ∧
    sizeof_short * (write_loop ⟨width, height, data⟩).length = width * height * 6 ∧
    ∃ s, render_loop m width height ⟨write_loop ⟨width, height, data⟩, [], []⟩ = some s ∧
      s.in_f = [] ∧ s.buffers.length = width * height ∧
      ∀ x y : Nat, x < width → y < height → s.buffers[x * height + y]? = some (data x y) := by
  have hlen : (pixels ⟨width, height, data⟩).length = width * height := by
    simpa using pixels_length ⟨width, height, data⟩
  have hw : (write_loop ⟨width, height, data⟩).length = width * height * 3 := by
    rw [write_loop_eq, shorts_length, hlen]; ring
  refine ⟨hw, by rw [hw, sizeof_short]; ring, ?_⟩
  refine ⟨⟨[], shorts ((pixels ⟨width, height, data⟩).map (prettify m)),
    pixels ⟨width, height, data⟩⟩, ?_, rfl, hlen, ?_⟩
  · rw [write_loop_eq]
    exact render_loop_eq m width height _ hlen
  · intro x y hx hy
    simpa using pixels_getElem? ⟨width, height, data⟩ x y (by simpa using hx) (by simpa using hy)

/-! ## C4: where a trial is accepted -/

/-- C4, amended: a trial for the seed `c` is accepted at the first index
`i < threshold.max` at which the `z` held when round `i` starts (`orbit[i-1]`,
or `0` at `i = 0`; not the `z` the round computes) has squared magnitude `> 4`;
that index is at least `1`, the buffer then holds the orbit at `0..i`, `retrace`
is called with length `i - 1` and the count goes up by one. If no round
`i < threshold.max` starts from an escaped `z` the trial leaves the object and
the count as they were. -/
theorem trial_accepts_at_first_escaped_start {K : Type} [LinearOrderedField K] [FloorRing K]
    (b : Buddha) (count : Int) (orbit : Nat → Complex K) (c : Complex K) :
    (∀ i : Nat, (i : Int) < b.threshold.max → 4 < normSq (zBefore c i) →
      (∀ j, j < i → normSq (zBefore c j) ≤ 4) →
      1 ≤ i ∧
      for_loop c b.threshold.max.toNat 0 ⟨0, 0⟩ orbit = (fill c orbit 0 (i + 1), some i) ∧
      trial b count orbit c =
        (retrace b (fill c orbit 0 (i + 1)) ((i : Int) - 1)).map
          fun b1 => (b1, count + 1, fill c orbit 0 (i + 1))) ∧
    ((∀ i : Nat, (i : Int) < b.threshold.max → normSq (zBefore c i) ≤ 4) →
      trial b count orbit c = some (b, count, fill c orbit 0 b.threshold.max.toNat)) := by
  constructor
  · intro i hi hesc hfirst
    have hloop : for_loop c b.threshold.max.toNat 0 ⟨0, 0⟩ orbit
        = (fill c orbit 0 (i + 1), some i) :=
      for_loop_some c b.threshold.max.toNat 0 i orbit (Nat.zero_le i) (by omega) hesc
        (fun j _ hj => hfirst j hj)
    refine ⟨?_, hloop, ?_⟩
    · rcases Nat.eq_zero_or_pos i with h0 | h0
      · subst h0
        simp [zBefore, normSq] at hesc
        exact absurd hesc (by norm_num)
      · exact h0
    · unfold trial
      rw [hloop]
  · intro hall
    have hloop : for_loop c b.threshold.max.toNat 0 ⟨0, 0⟩ orbit
        = (fill c orbit 0 (0 + b.threshold.max.toNat), none) :=
      for_loop_none c b.threshold.max.toNat 0 orbit (fun j _ hj => hall j (by omega))
    unfold trial
    rw [hloop, Nat.zero_add]

/-- C4, the amended statement at `c = (1, 1)`, `threshold.max = 3`: the trial is
accepted at index `2` and `retrace` gets length `1`. -/
theorem trial_accepts_at_first_escaped_start_witness :
    1 ≤ 2 ∧
    for_loop (⟨1, 1⟩ : Complex ℚ)
        (Buddha.construct (calloc_canvas 4 4) ⟨3, 3, 3, 0⟩ 1).threshold.max.toNat 0 ⟨0, 0⟩
        (fun _ => ⟨0, 0⟩)
      = (fill ⟨1, 1⟩ (fun _ => ⟨0, 0⟩) 0 (2 + 1), some 2) ∧
    trial (Buddha.construct (calloc_canvas 4 4) ⟨3, 3, 3, 0⟩ 1) 0 (fun _ => ⟨0, 0⟩)
        (⟨1, 1⟩ : Complex ℚ)
      = (retrace (Buddha.construct (calloc_canvas 4 4) ⟨3, 3, 3, 0⟩ 1)
            (fill (⟨1, 1⟩ : Complex ℚ) (fun _ => ⟨0, 0⟩) 0 (2 + 1)) (((2 : Nat) : Int) - 1)).map
          fun b1 => (b1, 0 + 1, fill (⟨1, 1⟩ : Complex ℚ) (fun _ => ⟨0, 0⟩) 0 (2 + 1)) :=
  (trial_accepts_at_first_escaped_start
    (Buddha.construct (calloc_canvas 4 4) ⟨3, 3, 3, 0⟩ 1) 0 (fun _ => ⟨0, 0⟩)
    (⟨1, 1⟩ : Complex ℚ)).1 2 (by decide) (by norm_num [zBefore, normSq])
    (by
      intro j hj
      interval_cases j <;> norm_num [zBefore, normSq])

/-- C4, the claim as stated fails: for `c = (1, 1)` and `threshold.max = 3` the
first value appended with squared magnitude `> 4` is `orbit[1] = (1, 3)`
(`orbit[0] = (1, 1)` has squared magnitude `2`), yet the loop does not break at
index `1` but at index `2`. -/
theorem break_index_is_not_first_escaped_entry :
    normSq ((for_loop (⟨1, 1⟩ : Complex ℚ) 3 0 ⟨0, 0⟩ (fun _ => ⟨0, 0⟩)).1 0) ≤ 4 ∧
    4 < normSq ((for_loop (⟨1, 1⟩ : Complex ℚ) 3 0 ⟨0, 0⟩ (fun _ => ⟨0, 0⟩)).1 1) ∧
    (for_loop (⟨1, 1⟩ : Complex ℚ) 3 0 ⟨0, 0⟩ (fun _ => ⟨0, 0⟩)).2 ≠ some 1 ∧
    (for_loop (⟨1, 1⟩ : Complex ℚ) 3 0 ⟨0, 0⟩ (fun _ => ⟨0, 0⟩)).2 = some 2 := by
  norm_num [for_loop, Function.update, normSq]

/-! ## C5: the seeds of `mandel_rand` -/

/-- C6: over the reals `smoothstep` is monotonic non-decreasing on non-negative
inputs: `0 ≤ x ≤ y` gives `smoothstep x ≤ smoothstep y`. -/
theorem smoothstep_monotone (RAND_MAX : Nat) (x y : Int) (hx : 0 ≤ x) (hxy : x ≤ y) :
    smoothstep (realLibm RAND_MAX) x ≤ smoothstep (realLibm RAND_MAX) y := by
  rw [smoothstep_real, smoothstep_real]
  exact trunc_mono_of_nonneg (smoothValue_pos x).le (smoothValue_mono hx hxy)

/-- C6 at the counts `1 ≤ 8`. -/
theorem smoothstep_monotone_witness :
    smoothstep (realLibm 32767) 1 ≤ smoothstep (realLibm 32767) 8 :=
  smoothstep_monotone 32767 1 8 (by decide) (by decide)

/-! ## C7: the range of `smoothstep` -/

/-- C7, amended: whatever the library's `cbrt` is, as long as its `pow(2, ·)` is
never negative, the value `smoothstep` returns lies in the closed interval
`[0, 120]`. -/
theorem smoothstep_within_closed_range {K : Type} [LinearOrderedField K] [FloorRing K]
    (m : Libm K) (hpow : ∀ y : K, 0 ≤ m.pow 2 y) (x : Int) :
    0 ≤ smoothstep m x ∧ smoothstep m x ≤ 120 := by
  have hp := hpow (-2 * (m.cbrt (x : K) - 5))
  have hden : (0 : K) < 1 + m.pow 2 (-2 * (m.cbrt (x : K) - 5)) := by linarith
  have h0 : (0 : K) ≤ 120 / (1 + m.pow 2 (-2 * (m.cbrt (x : K) - 5))) :=
    div_nonneg (by norm_num) hden.le
  have h1 : 120 / (1 + m.pow 2 (-2 * (m.cbrt (x : K) - 5))) ≤ (120 : K) := by
    rw [div_le_iff₀ hden]
    nlinarith
  unfold smoothstep trunc
  rw [if_pos h0]
  constructor
  · exact Int.floor_nonneg.mpr h0
  · have h := Int.floor_le_floor h1
    simpa using h

/-- C7, the amended statement for the real library at the count `32767`. -/
theorem smoothstep_within_closed_range_witness :
    0 ≤ smoothstep (realLibm 32767) 32767 ∧ smoothstep (realLibm 32767) 32767 ≤ 120 :=
  smoothstep_within_closed_range (realLibm 32767)
    (fun y => Real.rpow_nonneg (by norm_num) y) 32767

/-- C7, the claim as stated fails: the count `0` is mapped to
`trunc (120 / 1025) = 0`, which is not greater than `0`. -/
theorem smoothstep_zero : smoothstep (realLibm 32767) 0 = 0 ∧
    ¬ (0 < smoothstep (realLibm 32767) 0) := by
  have h : smoothstep (realLibm 32767) 0 = 0 := by
    have hv : smoothValue 0 = 120 / 1025 := by
      unfold smoothValue realCbrt
      have h0 : ((0 : ℝ)) ^ ((1 : ℝ) / 3) = 0 := Real.zero_rpow (by norm_num)
      have h10 : (2 : ℝ) ^ (10 : ℝ) = 1024 := by
        rw [show (10 : ℝ) = ((10 : ℕ) : ℝ) by norm_num, Real.rpow_natCast]
        norm_num
      simp only [Int.cast_zero, le_refl, if_true, h0]
      rw [show (-2 * ((0 : ℝ) - 5)) = 10 by norm_num, h10]
      norm_num
    rw [smoothstep_real, hv]
    unfold trunc
    rw [if_pos (by norm_num)]
    rw [Int.floor_eq_iff]
    constructor <;> norm_num
  exact ⟨h, by rw [h]; decide⟩

/-! ## C8: render mode -/

/-- C8: for every `width` and `height` (positive or `0`) and an intermediate file holding the
`width * height` triplets `ts`, render mode writes the header
`"P6\t<width>\t<height>\t32767\n"` with the dimensions in decimal, then exactly
`width * height` triplets, the `k`-th being `prettify` (which is `smoothstep` on
`red`, `green` and `blue` apart) of the `k`-th triplet read; when the file lists a
grid `x` outer, `y` inner, pixel `(x, y)` is at position `x * height + y` of the
output. -/
theorem render_writes_header_and_prettified {K : Type} [LinearOrderedField K] [FloorRing K]
    (m : Libm K) (width height : Nat) (ts : List Color) (hts : ts.length = width * height) :
    (render m width height (shorts ts)).1
      = "P6\t" ++ Nat.repr width ++ "\t" ++ Nat.repr height ++ "\t32767\n" ∧
    ∃ s, (render m width height (shorts ts)).2 = some s ∧
      s.out_f = shorts (ts.map (prettify m)) ∧
      (ts.map (prettify m)).length = width * height ∧
      s.out_f.length = width * height * 3 ∧
      (∀ k : Nat, (ts.map (prettify m))[k]? = (ts[k]?).map (prettify m)) ∧
      (∀ p : Color, prettify m p
        = ⟨smoothstep m p.red, smoothstep m p.green, smoothstep m p.blue⟩) ∧
      (∀ data : Nat → Nat → Color, ts = pixels ⟨width, height, data⟩ →
        ∀ x y : Nat, x < width → y < height →
          (ts.map (prettify m))[x * height + y]? = some (prettify m (data x y))) := by
  refine ⟨ppm_header_natCast width height, ⟨[], shorts (ts.map (prettify m)), ts⟩, ?_, rfl, ?_,
    ?_, ?_, ?_, ?_⟩
  · exact render_loop_eq m width height ts hts
  · rw [List.length_map, hts]
  · rw [shorts_length, List.length_map, hts]; ring
  · intro k
    exact List.getElem?_map _ _ _
  · intro p
    rfl
  · intro data hdata x y hx hy
    rw [List.getElem?_map, hdata]
    have := pixels_getElem? ⟨width, height, data⟩ x y (by simpa using hx) (by simpa using hy)
    simp only [Int.toNat_ofNat] at this
    rw [this]
    rfl

/-- C8 on a `1 × 2` file with the triplets `(0, 0, 0)` and `(1, 2, 3)`. -/
theorem render_writes_header_and_prettified_witness :
    (render (realLibm 32767) (1 : Nat) (2 : Nat) (shorts [⟨0, 0, 0⟩, ⟨1, 2, 3⟩])).1
      = "P6\t" ++ Nat.repr 1 ++ "\t" ++ Nat.repr 2 ++ "\t32767\n" ∧
    ∃ s, (render (realLibm 32767) (1 : Nat) (2 : Nat) (shorts [⟨0, 0, 0⟩, ⟨1, 2, 3⟩])).2 = some s ∧
      s.out_f = shorts ([⟨0, 0, 0⟩, ⟨1, 2, 3⟩].map (prettify (realLibm 32767))) ∧
      ([(⟨0, 0, 0⟩ : Color), ⟨1, 2, 3⟩].map (prettify (realLibm 32767))).length = 1 * 2 ∧
      s.out_f.length = 1 * 2 * 3 ∧
      (∀ k : Nat, ([(⟨0, 0, 0⟩ : Color), ⟨1, 2, 3⟩].map (prettify (realLibm 32767)))[k]?
        = ([(⟨0, 0, 0⟩ : Color), ⟨1, 2, 3⟩][k]?).map (prettify (realLibm 32767))) ∧
      (∀ p : Color, prettify (realLibm 32767) p
        = ⟨smoothstep (realLibm 32767) p.red, smoothstep (realLibm 32767) p.green,
            smoothstep (realLibm 32767) p.blue⟩) ∧
      (∀ data : Nat → Nat → Color,
        [(⟨0, 0, 0⟩ : Color), ⟨1, 2, 3⟩] = pixels ⟨(1 : Nat), (2 : Nat), data⟩ →
        ∀ x y : Nat, x < 1 → y < 2 →
          ([(⟨0, 0, 0⟩ : Color), ⟨1, 2, 3⟩].map (prettify (realLibm 32767)))[x * 2 + y]?
            = some (prettify (realLibm 32767) (data x y))) :=
  render_writes_header_and_prettified (realLibm 32767) 1 2 [⟨0, 0, 0⟩, ⟨1, 2, 3⟩] rfl

/-! ## C9: the constructor -/

/-- C9: the constructor stores `max = max(red, green, blue)` whatever the incoming
`max` field is and keeps `red`, `green`, `blue`; `retrace` and `iterate`, the
methods that return a new object state, leave the stored threshold (so `max`) as
it was. -/
theorem construct_threshold_max {K : Type} [LinearOrderedField K] [FloorRing K]
    (canvas : Canvas) (t : Threshold) (samples : Int) :
    (Buddha.construct canvas t samples).threshold.max = max t.red (max t.green t.blue) ∧
    (Buddha.construct canvas t samples).threshold.red = t.red ∧
    (Buddha.construct canvas t samples).threshold.green = t.green ∧
    (Buddha.construct canvas t samples).threshold.blue = t.blue ∧
    (∀ (b b' : Buddha) (orbit : Nat → Complex K) (length : Int),
      retrace b orbit length = some b' → b'.threshold = b.threshold) ∧
    (∀ (m : Libm K) (b b' : Buddha) (orbit0 : Nat → Complex K) (draws : List Nat) (n : Int),
      (iterate m b orbit0 draws = Outcome.exited b' n ∨
        iterate m b orbit0 draws = Outcome.starved b' n) → b'.threshold = b.threshold) := by
  refine ⟨?_, rfl, rfl, rfl, ?_, ?_⟩
  · simp only [Buddha.construct]
    split_ifs <;> simp only [max_def] <;> split_ifs <;> omega
  · intro b b' orbit length h
    exact (retrace_sameConfig h).1
  · intro m b b' orbit0 draws n h
    exact (while_loop_sameConfig m _ _ _ _ _ _ _ h).1

/-! ## C10: acceptance needs two rounds -/

/-- C10: for a seed with `|c|² ≤ 4` (that is `c.real * c.real + c.imag * c.imag ≤ 4`,
the sum the escape test forms) the `for` loop never breaks at index `0` or `1`, so a length `i - 1`
given to `retrace` is at least `1`; with `threshold.max ≤ 2` such a seed is never
accepted (object and count unchanged); and then, for `samples > 0` and any draws
on which every seed `mandel_rand` returns has `|c|² ≤ 4`, `iterate` is still in
its loop with count `0` and the canvas untouched when the draws are used up. -/
theorem no_acceptance_before_index_two {K : Type} [LinearOrderedField K] [FloorRing K]
    (b : Buddha) (count : Int) (orbit : Nat → Complex K) :
    (∀ c : Complex K, normSq c ≤ 4 → ∀ (orbit1 : Nat → Complex K) (i : Nat),
      for_loop c b.threshold.max.toNat 0 ⟨0, 0⟩ orbit = (orbit1, some i) →
        2 ≤ i ∧ (1 : Int) ≤ (i : Int) - 1) ∧
    (b.threshold.max ≤ 2 → ∀ c : Complex K, normSq c ≤ 4 →
      ∃ orbit1, trial b count orbit c = some (b, count, orbit1)) ∧
    (b.threshold.max ≤ 2 → 0 < b.samples →
      ∀ (m : Libm K) (draws : List Nat), (∀ c ∈ seeds m draws.length draws, normSq c ≤ 4) →
        iterate m b orbit draws = Outcome.starved b 0) := by
  refine ⟨?_, ?_, ?_⟩
  · intro c hc orbit1 i h
    have := for_loop_index_ge_two c hc _ _ _ _ h
    omega
  · intro hmax c hc
    exact trial_discards_small_max b hmax count orbit c hc
  · intro hmax hs m draws hd
    exact while_loop_starves m b hmax 0 hs _ orbit draws hd

/-- C10 on a `4 × 4` canvas with thresholds `(2, 2, 2)` and one sample, for the
draws `0`, `RAND_MAX = 2147483647`, whose one seed is `(2, 0)` with `|c|² = 4`:
`iterate` is still in its loop with count `0`. -/
theorem no_acceptance_before_index_two_witness :
    iterate (realLibm 2147483647) (Buddha.construct (calloc_canvas 4 4) ⟨2, 2, 2, 0⟩ 1)
        (fun _ => ⟨0, 0⟩) [0, 2147483647]
      = Outcome.starved (Buddha.construct (calloc_canvas 4 4) ⟨2, 2, 2, 0⟩ 1) 0 :=
  (no_acceptance_before_index_two
    (Buddha.construct (calloc_canvas 4 4) ⟨2, 2, 2, 0⟩ 1) 0 (fun _ => ⟨0, 0⟩)).2.2
    (by decide) (by decide) (realLibm 2147483647) [0, 2147483647]
    (by
      have hm : mandel_rand (realLibm 2147483647) [0, 2147483647] = some (⟨2, 0⟩, []) := by
        rw [mandel_rand_real_cons]
        norm_num
      have hnil : mandel_rand (realLibm 2147483647) [] = none := rfl
      have hs : seeds (realLibm 2147483647) 2 [0, 2147483647] = [⟨2, 0⟩] := by
        rw [seeds, hm]
        simp only
        rw [seeds, hnil]
      intro c hc
      rw [show [0, 2147483647].length = 2 from rfl, hs, List.mem_singleton] at hc
      rw [hc]
      norm_num [normSq])

end Buddhabrot
